import Mathlib

/-!
Verification of the swagger-generation core of `flask_toolbox.framing`
(`swagger_generator.py`): the JSON-Schema flattener, the Flask→Swagger
path translator, and the route-walking generator passes (security,
definitions de-duplication, path parameters).

The embedding mirrors the Python source value-for-value: JSON-Schema
fragments are dictionaries carrying a `type` tag (`object` with `title`,
`properties` and an optional `required` list; `array` with `items`;
primitives with just a type name; `$ref` dictionaries), and dictionary
accesses that can raise `KeyError` in Python are modelled with `Except`.
-/

set_option autoImplicit false

namespace FlaskRebar

/-- JSON-Schema fragment as manipulated by `swagger_generator.py`: an
`object` dictionary (optional `title`, `properties` mapping, `required`
list), an `array` dictionary (optional `title`, `items`), a primitive
dictionary (its `type` string), or a `$ref` dictionary (which carries no
`type` key). -/
inductive Frag where
| obj (title : Option String) (props : List (String × Frag)) (req : List String)
| arr (title : Option String) (items : Frag)
| prim (ty : String)
| ref (target : String)
deriving Repr

/-- Value of the `type` key of a fragment dictionary: `$ref` dictionaries
have none (reading `schema['type']` on them raises `KeyError`). -/
def typeTag : Frag → Option String
| .obj _ _ _ => some "object"
| .arr _ _ => some "array"
| .prim t => some t
| .ref _ => none

/-- Definitions dictionary built by the flattener: insertion-ordered map
from title to fragment, as a Python `dict`. -/
abbrev Defs : Type := List (String × Frag)

/-- Python `dict` assignment `d[k] = v`: overwrite in place when the key is
present (keeping its position), append otherwise. -/
def dictInsert {α : Type} (d : List (String × α)) (k : String) (v : α) :
    List (String × α) :=
if (List.lookup k d).isSome then
  List.map (fun p => cond (p.1 == k) (k, v) p) d
else d ++ [(k, v)]

/-- Python `dict` assignment on a definitions dictionary. -/
def insertDef (d : Defs) (k : String) (v : Frag) : Defs :=
dictInsert d k v

/-- Python `d1.update(d2)`, entry by entry in `d2`'s order. -/
def updateDefs (d₁ d₂ : Defs) : Defs :=
List.foldl (fun acc p => insertDef acc p.1 p.2) d₁ d₂

/-- Lookup in a definitions dictionary. -/
def lookupDef (d : Defs) (k : String) : Option Frag :=
List.lookup k d

/-- Embeds `_get_ref`: `'/'.join(['#', 'definitions', key])`. -/
def _get_ref (key : String) : String :=
String.intercalate "/" ["#", "definitions", key]

/-- Embeds `_get_key`: `obj[sw.title]`, raising `KeyError` when the
fragment has no title. -/
def _get_key : Frag → Except String String
| .obj (some t) _ _ => .ok t
| .arr (some t) _ => .ok t
| _ => .error "KeyError: title"

mutual

/-- Embeds `_flatten_object(schema, definitions)`: processes every
property (in dictionary order, threading the shared `definitions`),
registers the rewritten object under its own title, and returns that
title together with the rewritten object and the grown definitions. -/
def _flatten_object (s : Frag) (defs : Defs) : Except String (String × Frag × Defs) :=
match s with
| .obj title props req => do
  let (props2, defs2) ← _flatten_props props defs
  match title with
  | some key => .ok (key, .obj title props2 req, insertDef defs2 key (.obj title props2 req))
  | none => .error "KeyError: title"
| _ => .error "KeyError: properties"

/-- Loop body of `_flatten_object`: `for field, obj in schema['properties'].items()`,
replacing object-typed fields by a `$ref`, recursing into array-typed
fields in place, and leaving other fields untouched. -/
def _flatten_props (props : List (String × Frag)) (defs : Defs) :
    Except String (List (String × Frag) × Defs) :=
match props with
| [] => .ok ([], defs)
| (f, v) :: rest =>
  match typeTag v with
  | none => .error "KeyError: type"
  | some t =>
    if t = "object" then do
      let (key, _, defs2) ← _flatten_object v defs
      let (rest2, defs3) ← _flatten_props rest defs2
      .ok ((f, .ref (_get_ref key)) :: rest2, defs3)
    else if t = "array" then do
      let (v2, defs2) ← _flatten_array v defs
      let (rest2, defs3) ← _flatten_props rest defs2
      .ok ((f, v2) :: rest2, defs3)
    else do
      let (rest2, defs2) ← _flatten_props rest defs
      .ok ((f, v) :: rest2, defs2)

/-- Embeds `_flatten_array(schema, definitions)`: rewrites an object-typed
`items` to a `$ref` (registering the object), recurses into array-typed
`items`, and leaves other `items` untouched. -/
def _flatten_array (s : Frag) (defs : Defs) : Except String (Frag × Defs) :=
match s with
| .arr title items =>
  match typeTag items with
  | none => .error "KeyError: type"
  | some t =>
    if t = "object" then do
      let (key, _, defs2) ← _flatten_object items defs
      .ok (.arr title (.ref (_get_ref key)), defs2)
    else if t = "array" then do
      let (items2, defs2) ← _flatten_array items defs
      .ok (.arr title items2, defs2)
    else .ok (.arr title items, defs)
| _ => .error "KeyError: items"

end

/-- Embeds `_flatten(schema)`: works on a deep copy (value semantics here),
dispatches on the root `type` tag — objects are flattened and replaced by a
bare `$ref`, arrays are rewritten in place, anything else passes through
with an empty definitions delta. -/
def _flatten (schema : Frag) : Except String (Frag × Defs) :=
match typeTag schema with
| none => .error "KeyError: type"
| some t =>
  if t = "object" then do
    let (key, _, defs) ← _flatten_object schema []
    .ok (.ref (_get_ref key), defs)
  else if t = "array" then do
    let (s2, defs) ← _flatten_array schema []
    .ok (s2, defs)
  else .ok (schema, [])

/-!
Path translator: `_format_path_for_swagger` applies the regular expression
`<((?P<type>.+?):)?(?P<name>.+?)>` (compiled as `_PATH_REGEX`) with
`finditer`/`sub`. The scanner below reproduces the backtracking semantics
of that pattern: a match starts at a literal `<`; the optional
`type`-group is tried first (lazy `.+?` before a literal `:`), then the
lazy `name` before a literal `>`; `.` never matches a newline.
-/

/-- Lazy `.+?` up to (and consuming) the first occurrence of `stop`,
where `.` does not cross a newline; the matched part may be empty here
(nonemptiness is enforced by the caller consuming one char first). -/
def takeUntilChar (stop : Char) : List Char → Option (List Char × List Char)
| [] => none
| c :: rest =>
  if c = stop then some ([], rest)
  else if c = '\n' then none
  else
    match takeUntilChar stop rest with
    | some (pre, post) => some (c :: pre, post)
    | none => none

/-- Lazy nonempty `.+?` followed by the literal `stop`: returns the
matched characters and the remainder after `stop`. -/
def nameSplit (stop : Char) : List Char → Option (List Char × List Char)
| [] => none
| c :: rest =>
  if c = '\n' then none
  else
    match takeUntilChar stop rest with
    | some (pre, post) => some (c :: pre, post)
    | none => none

/-- Backtracking for the present-`type` branch `(?P<type>.+?):(?P<name>.+?)>`:
the lazy `type` grows one character at a time (accumulated reversed in
`acc`); at each literal `:` with a nonempty `type` candidate the lazy
`name` is tried; on failure the `:` is absorbed into `type` and scanning
continues. -/
def tryTypeSplit (acc : List Char) : List Char → Option (List Char × List Char × List Char)
| [] => none
| c :: rest =>
  if c = ':' then
    if acc.isEmpty then tryTypeSplit (c :: acc) rest
    else
      match nameSplit '>' rest with
      | some (nm, rest2) => some (acc.reverse, nm, rest2)
      | none => tryTypeSplit (c :: acc) rest
  else if c = '\n' then none
  else tryTypeSplit (c :: acc) rest

/-- Attempt to match `((?P<type>.+?):)?(?P<name>.+?)>` on the characters
following a `<`: the greedy optional group tries the `type` branch first
and falls back to a bare `name`. Returns `(name, type?, rest)`. -/
def matchPlaceholder (l : List Char) : Option (String × Option String × List Char) :=
match tryTypeSplit [] l with
| some (ty, nm, rest) => some (String.mk nm, some (String.mk ty), rest)
| none =>
  match nameSplit '>' l with
  | some (nm, rest) => some (String.mk nm, none, rest)
  | none => none

/-- Embeds the `namedtuple('PathArgument', ['name', 'type'])`. -/
structure _PathArgument where
  name : String
  type : String
deriving Repr, DecidableEq

/-- Combined `finditer`/`sub` scan over the path characters: every
non-overlapping match of `_PATH_REGEX` (which must begin at a `<`) is
replaced by the brace-delimited name and recorded as a path argument
with a missing type defaulting to `"string"`, other characters are
copied through. The fuel argument only makes the recursion structural:
every step consumes at least one character, so fuel equal to the input
length (as passed by `_format_path_for_swagger`) is never exhausted. -/
def formatPathScan : Nat → List Char → List Char × List _PathArgument
| _, [] => ([], [])
| 0, l => (l, [])
| fuel + 1, c :: rest =>
  if c = '<' then
    match matchPlaceholder rest with
    | some (nm, ty, rest2) =>
      let (out, args) := formatPathScan fuel rest2
      ('{' :: (nm.data ++ ('}' :: out)), ⟨nm, ty.getD "string"⟩ :: args)
    | none =>
      let (out, args) := formatPathScan fuel rest
      (c :: out, args)
  else
    let (out, args) := formatPathScan fuel rest
    (c :: out, args)

/-- Embeds `_format_path_for_swagger(path)`. -/
def _format_path_for_swagger (path : String) : String × List _PathArgument :=
let (out, args) := formatPathScan path.data.length path.data
(String.mk out, args)

/-!
Generator passes of `SwaggerV2Generator`. Marshmallow schema instances
are opaque to `swagger_generator.py` beyond their object identity
(marshmallow schemas use default object equality, so Python set
membership is identity), their swagger title and their class name; they
are modelled by `MSchema`, with `sid` standing for object identity —
distinct instances carry distinct `sid`s. The four converter registries
live in `marshmallow_to_jsonschema.py` and are modelled as opaque
conversion functions `MSchema → Frag` configured on the generator.
-/

/-- Marshmallow schema instance, reduced to what the generator reads:
its identity (`sid`), `get_swagger_title(schema)` (`title`) and
`schema.__class__.__name__` (`className`). -/
structure MSchema where
  sid : Nat
  title : String
  className : String
deriving Repr, DecidableEq

/-- Handler function of a route: `get_swagger_title(d.func)` is its name
and `d.func.__doc__` its docstring (`none` models a missing/empty one). -/
structure HandlerFunc where
  name : String
  doc : Option String
deriving Repr, DecidableEq

/-- Embeds `framer.HeaderApiKeyAuthenticator`, the only authenticator
class registered in `authenticator_converters` by default. -/
structure HeaderApiKeyAuthenticator where
  name : String
  header : String
deriving Repr, DecidableEq

/-- Per-route authenticator, a tri-state in the source: the `USE_DEFAULT`
sentinel, an explicit `None`, or an authenticator instance. -/
inductive AuthenticatorSetting where
| useDefault
| noAuth
| auth (a : HeaderApiKeyAuthenticator)
deriving Repr, DecidableEq

/-- Embeds the `PathDefinition` metadata of `framer.py` that
`swagger_generator.py` reads for each (path, method). -/
structure PathDefinition where
  func : HandlerFunc
  marshal_schemas : List (Nat × MSchema)
  query_string_schema : Option MSchema
  request_body_schema : Option MSchema
  headers_schema : Option MSchema
  authenticator : AuthenticatorSetting
deriving Repr

/-- Route table handed to the generator: path → method → definition. -/
abbrev Paths : Type := List (String × List (String × PathDefinition))

/-- Embeds `_convert_header_api_key_authenticator(authenticator)`. -/
def _convert_header_api_key_authenticator (a : HeaderApiKeyAuthenticator) :
    String × List (String × String) :=
(a.name, [("name", a.header), ("in", "header"), ("type", "apiKey")])

/-- Embeds `SwaggerV2Generator._get_security(authenticator)`: looks up the
authenticator's class in `authenticator_converters` (only
`HeaderApiKeyAuthenticator` is registered by default, so the lookup is
modelled as always finding `_convert_header_api_key_authenticator`) and
returns the one-entry requirement mapping its name to an empty list. -/
def _get_security (a : HeaderApiKeyAuthenticator) : List (String × List String) :=
let (name, _) := _convert_header_api_key_authenticator a
[(name, [])]

/-- Swagger parameter dictionary: the keys `swagger_generator.py` writes.
`type` and `schema` model keys that are present only on some parameter
kinds (the `type` key of a query/header parameter comes from the copied
property fragment). -/
structure SwaggerParameter where
  name : String
  in_ : String
  required : Bool
  type : Option String
  schema : Option Frag
deriving Repr

/-- Embeds `_convert_jsonschema_to_list_of_parameters(obj, in_)`: asserts
the fragment is an object, then emits one parameter per property, copying
the property (its `type` tag), marking it required when listed in the
object's `required` list, and stamping the location and name. -/
def _convert_jsonschema_to_list_of_parameters (obj : Frag) (in_ : String) :
    Except String (List SwaggerParameter) :=
match obj with
| .obj _ props req =>
  .ok (props.map fun p =>
    { name := p.1, in_ := in_, required := decide (p.1 ∈ req),
      type := typeTag p.2, schema := none })
| _ => .error "AssertionError"

/-- Embeds the `SwaggerV2Generator` configuration: constructor defaults
for the flask-converter map, the four converter registries as opaque
conversion functions, and the default error response schema. -/
structure SwaggerV2Generator where
  host : String := "http://default.dev.planfront.net"
  schemes : List String := ["http"]
  consumes : List String := ["application/json"]
  produces : List String := ["application/vnd.plangrid+json"]
  query_string_converter : MSchema → Frag
  request_body_converter : MSchema → Frag
  headers_converter : MSchema → Frag
  response_converter : MSchema → Frag
  flask_converters_to_swagger_types : List (String × String) :=
    [("uuid", "string"), ("string", "string"), ("int", "integer"), ("float", "number")]
  default_response_schema : MSchema

/-- Constructor default of `self.flask_converters_to_swagger_types`. -/
def defaultFlaskConverters : List (String × String) :=
[("uuid", "string"), ("string", "string"), ("int", "integer"), ("float", "number")]

/-- Embeds `register_flask_converter_to_swagger_type`. -/
def register_flask_converter_to_swagger_type (g : SwaggerV2Generator)
    (flask_converter swagger_type : String) : SwaggerV2Generator :=
{ g with flask_converters_to_swagger_types :=
    dictInsert g.flask_converters_to_swagger_types flask_converter swagger_type }

/-- Response entry `{'schema': ...}` of the responses dictionary. -/
structure ResponseEntry where
  schema : Frag
deriving Repr

/-- Operation dictionary written under `path_definition[method.lower()]`:
`description`, `parameters` and `security` model keys that are written
only conditionally (`none` / `[]` meaning the key is absent). -/
structure SwaggerOperation where
  operationId : String
  description : Option String
  responses : List (String × ResponseEntry)
  parameters : List SwaggerParameter
  security : Option (List (String × List String))
deriving Repr

/-- Path item: the optional path-level `parameters` list (written only
when the path has arguments) and the per-method operations. -/
structure SwaggerPathItem where
  parameters : Option (List SwaggerParameter)
  operations : List (String × SwaggerOperation)
deriving Repr

/-- Responses dictionary of one operation: the always-present `default`
entry referencing the default response schema, then one entry per
marshal status code referencing that schema's title. -/
def responsesDefinition (g : SwaggerV2Generator) (d : PathDefinition) :
    List (String × ResponseEntry) :=
("default", ⟨.ref (_get_ref g.default_response_schema.title)⟩) ::
  d.marshal_schemas.map (fun p => (toString p.1, ⟨.ref (_get_ref p.2.title)⟩))

/-- Parameters list of one operation, in source order: exploded query
string parameters, then the single body parameter (named after the
schema's class, required, referencing its definition), then exploded
header parameters. -/
def operationParameters (g : SwaggerV2Generator) (d : PathDefinition) :
    Except String (List SwaggerParameter) := do
let qs ← match d.query_string_schema with
  | some s => _convert_jsonschema_to_list_of_parameters (g.query_string_converter s) "query"
  | none => pure []
let body := match d.request_body_schema with
  | some s =>
    [{ name := s.className, in_ := "body", required := true,
       type := none, schema := some (.ref (_get_ref s.title)) : SwaggerParameter }]
  | none => []
let hdr ← match d.headers_schema with
  | some s => _convert_jsonschema_to_list_of_parameters (g.headers_converter s) "header"
  | none => pure []
pure (qs ++ body ++ hdr)

/-- Security value of one operation, from lines 462-466 of the source:
explicit `None` gives the empty requirement, an explicit authenticator
gives `_get_security`, and the `USE_DEFAULT` sentinel leaves the key
absent (`none`). -/
def operationSecurity : AuthenticatorSetting → Option (List (String × List String))
| .noAuth => some []
| .useDefault => none
| .auth a => some (_get_security a)

/-- Operation dictionary for one method of one path (loop body over
`methods.items()` in `_get_paths`). -/
def mkOperation (g : SwaggerV2Generator) (d : PathDefinition) :
    Except String SwaggerOperation := do
let params ← operationParameters g d
.ok { operationId := d.func.name, description := d.func.doc,
      responses := responsesDefinition g d, parameters := params,
      security := operationSecurity d.authenticator }

/-- Path-level parameters for the extracted path arguments: each emitted
with the argument's name, `required = True`, `in = path`, and the type
from a direct (`KeyError`-raising) lookup of the flask converter tag in
`flask_converters_to_swagger_types`. -/
def mkPathParameters (g : SwaggerV2Generator) : List _PathArgument →
    Except String (List SwaggerParameter)
| [] => .ok []
| a :: rest =>
  match List.lookup a.type g.flask_converters_to_swagger_types with
  | some t => do
    let ps ← mkPathParameters g rest
    .ok ({ name := a.name, required := true, in_ := "path",
           type := some t, schema := none } :: ps)
  | none => .error ("KeyError: " ++ a.type)

/-- Embeds `SwaggerV2Generator._get_paths(paths)`. -/
def _get_paths (g : SwaggerV2Generator) (paths : Paths) :
    Except String (List (String × SwaggerPathItem)) :=
paths.mapM fun pe => do
  let (swagger_path, path_args) := _format_path_for_swagger pe.1
  let pparams ←
    if path_args.isEmpty then pure none
    else do
      let ps ← mkPathParameters g path_args
      pure (some ps)
  let ops ← pe.2.mapM (fun me => do
    let op ← mkOperation g me.2
    pure (me.1.toLower, op))
  pure (swagger_path, { parameters := pparams, operations := ops : SwaggerPathItem })

/-- Embeds `_iterate_path_definitions(paths)`. -/
def _iterate_path_definitions (paths : Paths) : List PathDefinition :=
(paths.map (fun pe => pe.2.map Prod.snd)).flatten

/-- Which converter registry `_get_definitions` dispatches a schema to. -/
inductive ConverterKind where
| response
| requestBody
deriving Repr, DecidableEq

/-- Record of one converter invocation made by `_get_definitions`. -/
structure ConverterCall where
  kind : ConverterKind
  schema : MSchema
deriving Repr, DecidableEq

/-- Shared body of the two `if schema not in all_schemas` blocks of
`_get_definitions`: record one converter invocation when the schema
instance is not yet in the identity set, then add it to the set. -/
def addSchema (kind : ConverterKind) (s : MSchema)
    (acc : List MSchema × List ConverterCall) : List MSchema × List ConverterCall :=
(if s ∈ acc.1 then acc.1 else acc.1 ++ [s],
 if s ∈ acc.1 then acc.2 else acc.2 ++ [⟨kind, s⟩])

/-- Loop body of `_get_definitions` for one route definition: its marshal
schemas (response registry) then its request-body schema (request-body
registry). -/
def collectRoute (acc : List MSchema × List ConverterCall) (d : PathDefinition) :
    List MSchema × List ConverterCall :=
let acc2 := d.marshal_schemas.foldl (fun a p => addSchema .response p.2 a) acc
match d.request_body_schema with
| some s => addSchema .requestBody s acc2
| none => acc2

/-- Schema-collection loop of `_get_definitions` (lines 471-491): starts
from the default response schema (always converted first), walks every
route definition, and for each marshal schema and request-body schema
not yet in the identity set `all_schemas` records one converter
invocation; returns the final set together with the ordered invocation
log (`converted` in the source is the values of these calls). -/
def collectSchemas (g : SwaggerV2Generator) (ds : List PathDefinition) :
    List MSchema × List ConverterCall :=
ds.foldl collectRoute
  ([g.default_response_schema], [⟨.response, g.default_response_schema⟩])

/-- Replay of one recorded converter invocation. -/
def convertCall (g : SwaggerV2Generator) (c : ConverterCall) : Frag :=
match c.kind with
| .response => g.response_converter c.schema
| .requestBody => g.request_body_converter c.schema

/-- Embeds `SwaggerV2Generator._get_definitions(paths)`: one conversion
per schema recorded by `collectSchemas`, then every converted fragment is
flattened and its delta merged (`flattened.update(...)`) left to right. -/
def _get_definitions (g : SwaggerV2Generator) (paths : Paths) :
    Except String Defs := do
let calls := (collectSchemas g (_iterate_path_definitions paths)).2
let converted := calls.map (convertCall g)
converted.foldlM (fun acc obj => do
  let (_, defs) ← _flatten obj
  pure (updateDefs acc defs)) ([] : Defs)

/-!
Heap model of `_flatten`'s aliasing behaviour. The pure `_flatten` above
cannot express the claim that the caller's dictionary is never mutated,
so the fragment tree is modelled a second time at the Python object
level: every dictionary is a cell in a heap addressed by `Nat`,
`copy.deepcopy` allocates a fresh copy of the tree, and
`_flatten_object` / `_flatten_array` write into cells in place exactly
where the source assigns into `schema[...]`. Fuel makes the recursions
structural; the frame theorem is quantified over every fuel value.
-/

/-- Heap cell: one Python dictionary of a fragment tree, with child
dictionaries held by address (reference). -/
inductive HNode where
| obj (title : Option String) (props : List (String × Nat)) (req : List String)
| arr (title : Option String) (items : Nat)
| prim (ty : String)
| ref (target : String)
deriving Repr, DecidableEq

/-- Heap of fragment dictionaries; the address of a cell is its index. -/
abbrev Heap : Type := List HNode

/-- Allocation of a fresh cell: returns the heap and the new address. -/
def halloc (h : Heap) (n : HNode) : Heap × Nat :=
(h ++ [n], h.length)

/-- In-place update of the cell at an address. -/
def hwrite (h : Heap) (a : Nat) (n : HNode) : Heap :=
h.set a n

/-- Child addresses held by a cell. -/
def nodeChildren : HNode → List Nat
| .obj _ props _ => props.map Prod.snd
| .arr _ items => [items]
| _ => []

mutual

/-- Embeds `copy.deepcopy` on a fragment tree: structurally copies the
tree below an address into freshly allocated cells, never writing an
existing cell. -/
def deepcopyNode : Nat → Heap → Nat → Option (Heap × Nat)
| 0, _, _ => none
| fuel + 1, h, a =>
  match h[a]? with
  | some (.obj t props req) =>
    match deepcopyProps fuel h props with
    | some (h2, props2) => some (halloc h2 (.obj t props2 req))
    | none => none
  | some (.arr t items) =>
    match deepcopyNode fuel h items with
    | some (h2, i2) => some (halloc h2 (.arr t i2))
    | none => none
  | some (.prim ty) => some (halloc h (.prim ty))
  | some (.ref r) => some (halloc h (.ref r))
  | none => none

/-- Deep copy of the property dictionary of an object cell. -/
def deepcopyProps : Nat → Heap → List (String × Nat) → Option (Heap × List (String × Nat))
| 0, _, _ => none
| _ + 1, h, [] => some (h, [])
| fuel + 1, h, (f, a) :: rest =>
  match deepcopyNode fuel h a with
  | some (h2, a2) =>
    match deepcopyProps fuel h2 rest with
    | some (h3, rest2) => some (h3, (f, a2) :: rest2)
    | none => none
  | none => none

end

/-- Flattener's definitions dictionary at the heap level: title → address
of the registered (aliased, possibly later mutated) object cell. -/
abbrev HDefs : Type := List (String × Nat)

mutual

/-- Heap-level `_flatten_object`: processes the properties of the object
cell at `a`, writes the rewritten property dictionary back into the cell
(the in-place `schema['properties'][field] = ...` assignments), and
registers the cell's address under its title. `none` models both a
raised `KeyError` and fuel exhaustion. -/
def flattenObjectH : Nat → Heap → Nat → HDefs → Option (Heap × String × HDefs)
| 0, _, _, _ => none
| fuel + 1, h, a, defs =>
  match h[a]? with
  | some (.obj title props req) =>
    match flattenPropsH fuel h props defs with
    | some (h2, props2, defs2) =>
      match title with
      | some key => some (hwrite h2 a (.obj title props2 req), key, dictInsert defs2 key a)
      | none => none
    | none => none
  | _ => none

/-- Heap-level loop over `schema['properties'].items()`: object-typed
children are flattened and replaced by a freshly allocated `$ref` cell,
array-typed children are rewritten in place, primitives pass through. -/
def flattenPropsH : Nat → Heap → List (String × Nat) → HDefs →
    Option (Heap × List (String × Nat) × HDefs)
| 0, _, _, _ => none
| _ + 1, h, [], defs => some (h, [], defs)
| fuel + 1, h, (f, ca) :: rest, defs =>
  match h[ca]? with
  | some (.obj _ _ _) =>
    match flattenObjectH fuel h ca defs with
    | some (h2, key, defs2) =>
      let (h3, ra) := halloc h2 (.ref (_get_ref key))
      match flattenPropsH fuel h3 rest defs2 with
      | some (h4, rest2, defs3) => some (h4, (f, ra) :: rest2, defs3)
      | none => none
    | none => none
  | some (.arr _ _) =>
    match flattenArrayH fuel h ca defs with
    | some (h2, defs2) =>
      match flattenPropsH fuel h2 rest defs2 with
      | some (h3, rest2, defs3) => some (h3, (f, ca) :: rest2, defs3)
      | none => none
    | none => none
  | some (.prim _) =>
    match flattenPropsH fuel h rest defs with
    | some (h2, rest2, defs2) => some (h2, (f, ca) :: rest2, defs2)
    | none => none
  | _ => none

/-- Heap-level `_flatten_array`: an object-typed `items` cell is
flattened and the array cell rewritten to hold a fresh `$ref` cell; an
array-typed `items` recurses; other `items` leave the heap untouched. -/
def flattenArrayH : Nat → Heap → Nat → HDefs → Option (Heap × HDefs)
| 0, _, _, _ => none
| fuel + 1, h, a, defs =>
  match h[a]? with
  | some (.arr title items) =>
    match h[items]? with
    | some (.obj _ _ _) =>
      match flattenObjectH fuel h items defs with
      | some (h2, key, defs2) =>
        let (h3, ra) := halloc h2 (.ref (_get_ref key))
        some (hwrite h3 a (.arr title ra), defs2)
      | none => none
    | some (.arr _ _) => flattenArrayH fuel h items defs
    | some (.prim _) => some (h, defs)
    | _ => none
  | _ => none

end

/-- Heap-level `_flatten(schema)`: deep-copies the tree at `a`, then
dispatches on the copy's `type` tag exactly as the source does; all
mutation happens on the freshly copied cells. Returns the result
address and the definitions dictionary. -/
def flattenHeap (fuel : Nat) (h : Heap) (a : Nat) : Option (Heap × Nat × HDefs) :=
match deepcopyNode fuel h a with
| none => none
| some (h1, a1) =>
  match h1[a1]? with
  | some (.obj _ _ _) =>
    match flattenObjectH fuel h1 a1 [] with
    | some (h2, key, defs) =>
      let (h3, ra) := halloc h2 (.ref (_get_ref key))
      some (h3, ra, defs)
    | none => none
  | some (.arr _ _) =>
    match flattenArrayH fuel h1 a1 [] with
    | some (h2, defs) => some (h2, a1, defs)
    | none => none
  | some (.prim _) => some (h1, a1, [])
  | some (.ref _) => none
  | none => none

/-!
Invariants and concrete fixtures used by the theorems below.
-/

/-- Invariant of the schema-collection loop: no schema instance is ever
recorded twice in the invocation log, and the identity set holds exactly
the schemas of the log. -/
def CollectInv (acc : List MSchema × List ConverterCall) : Prop :=
(acc.2.map (fun c => c.schema)).Nodup ∧
(∀ x : MSchema, x ∈ acc.1 ↔ x ∈ acc.2.map (fun c => c.schema))

/-- Closure of the copied region: every cell at an address at or above
`n` has all its children at or above `n`. -/
def closedAbove (n : Nat) (h : Heap) : Prop :=
∀ i nd c, n ≤ i → h[i]? = some nd → c ∈ nodeChildren nd → n ≤ c

/-- Simple converter for concrete scenarios: every schema instance
converts to a flat object fragment carrying its swagger title. -/
def sampleConverter : MSchema → Frag :=
fun s => .obj (some s.title) [("message", .prim "string")] []

/-- Default error schema instance for concrete scenarios. -/
def errorSchema : MSchema := ⟨0, "Error", "Error"⟩

/-- Generator configured with `sampleConverter` in all four registries. -/
def sampleGen : SwaggerV2Generator :=
{ query_string_converter := sampleConverter,
  request_body_converter := sampleConverter,
  headers_converter := sampleConverter,
  response_converter := sampleConverter,
  default_response_schema := errorSchema }

/-- Bare route with authenticator explicitly `None`. -/
def noAuthRoute : PathDefinition :=
{ func := ⟨"health", none⟩, marshal_schemas := [],
  query_string_schema := none, request_body_schema := none,
  headers_schema := none, authenticator := .noAuth }

/-- Operation built for `noAuthRoute` under `sampleGen`. -/
def noAuthOperation : SwaggerOperation :=
{ operationId := "health", description := none,
  responses := [("default", ⟨.ref (_get_ref "Error")⟩)],
  parameters := [], security := some [] }

/-- Shared response schema instance for the concrete C2 scenario. -/
def fooSchema : MSchema := ⟨1, "Foo", "FooSchema"⟩

/-- First route marshalling `fooSchema`. -/
def routeGetFoo : PathDefinition :=
{ func := ⟨"get_foo", none⟩, marshal_schemas := [(200, fooSchema)],
  query_string_schema := none, request_body_schema := none,
  headers_schema := none, authenticator := .useDefault }

/-- Second route marshalling the identical `fooSchema` instance. -/
def routePatchFoo : PathDefinition :=
{ func := ⟨"update_foo", none⟩, marshal_schemas := [(200, fooSchema)],
  query_string_schema := none, request_body_schema := none,
  headers_schema := none, authenticator := .useDefault }

/-- Route table registering the same schema instance on two routes. -/
def sharedSchemaPaths : Paths :=
[("/foos/<foo_uid>", [("GET", routeGetFoo), ("PATCH", routePatchFoo)])]

/-- Distinct schema instances with identical field shape but different
titles, for the second concrete C2 scenario. -/
def schemaA : MSchema := ⟨2, "A", "S"⟩

/-- Companion of `schemaA`: same shape, different title and identity. -/
def schemaB : MSchema := ⟨3, "B", "S"⟩

/-- Route marshalling `schemaA`. -/
def routeGetA : PathDefinition :=
{ func := ⟨"get_a", none⟩, marshal_schemas := [(200, schemaA)],
  query_string_schema := none, request_body_schema := none,
  headers_schema := none, authenticator := .useDefault }

/-- Route marshalling `schemaB`. -/
def routeGetB : PathDefinition :=
{ func := ⟨"get_b", none⟩, marshal_schemas := [(200, schemaB)],
  query_string_schema := none, request_body_schema := none,
  headers_schema := none, authenticator := .useDefault }

/-- Route table registering `schemaA` and `schemaB` on two routes. -/
def distinctTitlePaths : Paths :=
[("/a", [("GET", routeGetA)]), ("/b", [("GET", routeGetB)])]

/-- Input heap for the C9 witness: an object `x` with one integer field. -/
def c9Heap : Heap :=
[.obj (some "x") [("b", 1)] [], .prim "integer"]

/-- Heap after `flattenHeap 10 c9Heap 0`: the two input cells are intact,
followed by the copied and rewritten cells. -/
def c9HeapAfter : Heap :=
[.obj (some "x") [("b", 1)] [], .prim "integer",
 .prim "integer", .obj (some "x") [("b", 2)] [],
 .ref (_get_ref "x")]

/-!
Helper lemmas about the `dict` model.
-/

theorem lookup_map_replace {α : Type} (d : List (String × α)) (k : String) (v : α)
    (h : (List.lookup k d).isSome) :
    List.lookup k (List.map (fun p => cond (p.1 == k) (k, v) p) d) = some v := by
induction d with
| nil => simp [List.lookup] at h
| cons p rest ih =>
  rcases p with ⟨pk, pv⟩
  by_cases hp : pk = k
  · subst hp
    simp [List.lookup]
  · have hk : (k == pk) = false := by
      simp only [beq_eq_false_iff_ne, ne_eq]
      exact fun e => hp e.symm
    have hk2 : (pk == k) = false := by
      simp only [beq_eq_false_iff_ne, ne_eq]
      exact hp
    simp only [List.lookup, hk] at h
    simp only [List.map_cons, hk2, cond_false, List.lookup, hk]
    exact ih h

theorem lookup_append_single {α : Type} (d : List (String × α)) (k : String) (v : α)
    (h : List.lookup k d = none) :
    List.lookup k (d ++ [(k, v)]) = some v := by
induction d with
| nil => simp [List.lookup]
| cons p rest ih =>
  by_cases hp : (k == p.1) = true
  · simp [List.lookup, hp] at h
  · have hk : (k == p.1) = false := by simpa using hp
    simp only [List.lookup, hk] at h
    simp only [List.cons_append, List.lookup, hk]
    exact ih h

/-- Overwrite semantics of Python `dict` assignment: the value stored
last under a key is the value subsequently read. -/
theorem lookup_dictInsert {α : Type} (d : List (String × α)) (k : String) (v : α) :
    List.lookup k (dictInsert d k v) = some v := by
unfold dictInsert
by_cases h : (List.lookup k d).isSome
· rw [if_pos h]
  exact lookup_map_replace d k v h
· rw [if_neg h]
  apply lookup_append_single
  rcases h2 : List.lookup k d with _ | w
  · rfl
  · rw [h2] at h; simp at h

/-- Specialisation of the overwrite lemma to definitions dictionaries. -/
theorem lookupDef_insertDef (d : Defs) (k : String) (v : Frag) :
    lookupDef (insertDef d k v) k = some v :=
lookup_dictInsert d k v

/-!
Theorems for the flattener claims.
-/

/-- C1: for any object fragment titled `tf` with a field `fa` holding a
nested object distinctly titled `tg` (its single field `fb1` an integer)
and a sibling string field `fb2`, `_flatten` returns a bare reference to
`tf` and a definitions delta of exactly two entries: `tg` mapped to the
nested object verbatim, and `tf` mapped to the outer object with the
nested field replaced by a reference to `tg`. -/
theorem flatten_nested_object_spec (tf tg fa fb1 fb2 : String) (hne : tf ≠ tg) :
    _flatten (.obj (some tf)
      [(fa, .obj (some tg) [(fb1, .prim "integer")] []),
       (fb2, .prim "string")] []) =
    .ok (.ref (_get_ref tf),
      [(tg, .obj (some tg) [(fb1, .prim "integer")] []),
       (tf, .obj (some tf)
         [(fa, .ref (_get_ref tg)), (fb2, .prim "string")] [])]) := by
have hk : (tf == tg) = false := by
  simp only [beq_eq_false_iff_ne, ne_eq]; exact hne
simp [_flatten, typeTag, _flatten_object, _flatten_props, _flatten_array,
  insertDef, dictInsert, List.lookup, hk, bind, Except.bind]

/-- Witness for C1 at the test fixture (`x`/`y`/`a`/`b`). -/
theorem flatten_nested_object_spec_witness :
    _flatten (.obj (some "x")
      [("a", .obj (some "y") [("b", .prim "integer")] []),
       ("b", .prim "string")] []) =
    .ok (.ref (_get_ref "x"),
      [("y", .obj (some "y") [("b", .prim "integer")] []),
       ("x", .obj (some "x")
         [("a", .ref (_get_ref "y")), ("b", .prim "string")] [])]) :=
flatten_nested_object_spec "x" "y" "a" "b" "b" (by decide)

/-- C4: for an array whose items are an array whose items are a titled
object (single integer field), `_flatten` leaves both array wrappers
inline, rewrites only the innermost `items` to a reference, and the
definitions delta holds exactly the innermost object under its title —
the array root itself never becomes a definitions entry. -/
theorem flatten_array_of_array_spec (tx ty : Option String) (tz fa : String) :
    _flatten (.arr tx (.arr ty (.obj (some tz) [(fa, .prim "integer")] []))) =
    .ok (.arr tx (.arr ty (.ref (_get_ref tz))),
      [(tz, .obj (some tz) [(fa, .prim "integer")] [])]) := by
simp [_flatten, typeTag, _flatten_object, _flatten_props, _flatten_array,
  insertDef, dictInsert, List.lookup, bind, Except.bind]

/-- C5: a fragment whose `type` tag is neither `object` nor `array`
passes through `_flatten` unchanged, with an empty definitions delta. -/
theorem flatten_primitive_passthrough (t : String)
    (h1 : t ≠ "object") (h2 : t ≠ "array") :
    _flatten (.prim t) = .ok (.prim t, []) := by
simp [_flatten, typeTag, h1, h2]

/-- Witness for C5 at `integer`. -/
theorem flatten_primitive_passthrough_witness :
    _flatten (.prim "integer") = .ok (.prim "integer", []) :=
flatten_primitive_passthrough "integer" (by decide) (by decide)

/-- C6 counterexample: the claim says `_flatten` raises a
`StructuralAssumptionViolation` on a root that is neither `object` nor
`array`; on the concrete primitive root `{'type': 'string'}` it instead
returns normally (no error value), with the fragment unchanged. -/
theorem flatten_primitive_no_error_cx :
    _flatten (.prim "string") = .ok (.prim "string", []) ∧
    ∀ e, _flatten (.prim "string") ≠ .error e := by
refine ⟨rfl, ?_⟩
intro e h
simp [_flatten, typeTag] at h

/-- C6 amended: `_flatten` accepts a root of any `type` tag — a root
whose tag is neither `object` nor `array` is returned unchanged with an
empty delta and no error is raised (no `StructuralAssumptionViolation`
exists in the source). -/
theorem flatten_root_accepts_any_tag (t : String)
    (h1 : t ≠ "object") (h2 : t ≠ "array") :
    _flatten (.prim t) = .ok (.prim t, []) ∧
    ∀ e, _flatten (.prim t) ≠ .error e := by
refine ⟨flatten_primitive_passthrough t h1 h2, ?_⟩
intro e h
rw [flatten_primitive_passthrough t h1 h2] at h
exact Except.noConfusion h

/-- Witness for the amended C6 at `number`. -/
theorem flatten_root_accepts_any_tag_witness :
    _flatten (.prim "number") = .ok (.prim "number", []) ∧
    ∀ e, _flatten (.prim "number") ≠ .error e :=
flatten_root_accepts_any_tag "number" (by decide) (by decide)

/-- C8: duplicate titles silently overwrite. Within one fragment: an
object titled `t` whose field `fa` holds a nested object with the same
title `t` flattens without error to a single definitions entry under
`t`, equal to the later-registered outer object (the nested fragment
registered first is overwritten). Across merged deltas: an entry
inserted or merged later under an existing key replaces the earlier
value (`lookupDef` of the result returns the later fragment). -/
theorem flatten_duplicate_title_overwrite (t fa fb : String) :
    _flatten (.obj (some t)
      [(fa, .obj (some t) [(fb, .prim "integer")] [])] []) =
    .ok (.ref (_get_ref t),
      [(t, .obj (some t) [(fa, .ref (_get_ref t))] [])]) ∧
    (∀ (d : Defs) (k : String) (v : Frag),
      lookupDef (insertDef d k v) k = some v) ∧
    (∀ (d : Defs) (k : String) (v : Frag),
      lookupDef (updateDefs d [(k, v)]) k = some v) := by
refine ⟨?_, lookupDef_insertDef, ?_⟩
· simp [_flatten, typeTag, _flatten_object, _flatten_props, _flatten_array,
    insertDef, dictInsert, List.lookup, bind, Except.bind]
· intro d k v
  exact lookupDef_insertDef d k v

/-!
Theorems for the path translator claim.
-/

theorem formatPathScan_no_langle :
    ∀ (fuel : Nat) (l : List Char), (∀ c ∈ l, c ≠ '<') →
    formatPathScan fuel l = (l, []) := by
intro fuel
induction fuel with
| zero =>
  intro l h
  cases l with
  | nil => rfl
  | cons c rest => rfl
| succ fuel ih =>
  intro l h
  cases l with
  | nil => rfl
  | cons c rest =>
    have hc : ¬(c = '<') := h c (by simp)
    simp only [formatPathScan, if_neg hc]
    rw [ih rest (fun x hx => h x (by simp [hx]))]

/-- C7: translating `/projects/<uuid:project_uid>/foos/<foo_uid>` yields
the brace-delimited wire path and the arguments in left-to-right order
with the untyped placeholder defaulting to `string`; and any path whose
characters contain no `<` (hence no placeholder) is returned unchanged
with an empty argument list. -/
theorem format_path_spec :
    (_format_path_for_swagger "/projects/<uuid:project_uid>/foos/<foo_uid>" =
      ("/projects/{project_uid}/foos/{foo_uid}",
       [⟨"project_uid", "uuid"⟩, ⟨"foo_uid", "string"⟩])) ∧
    ∀ (path : String), (∀ c ∈ path.data, c ≠ '<') →
      _format_path_for_swagger path = (path, []) := by
constructor
· decide
· intro path h
  rcases path with ⟨data⟩
  unfold _format_path_for_swagger
  rw [formatPathScan_no_langle _ _ h]

/-- Witness for C7's placeholder-free part at `/health`. -/
theorem format_path_spec_witness :
    _format_path_for_swagger "/health" = ("/health", []) :=
format_path_spec.2 "/health" (by decide)

/-!
Theorems for the generator claims: per-route security, path parameters,
and identity de-duplication of definitions.
-/

/-- C3: for every route definition whose operation is built successfully,
the operation's `security` key is absent when the authenticator is the
`USE_DEFAULT` sentinel, is the empty map when the authenticator is an
explicit `None`, and is the one-entry map keyed by the converter-produced
name when the route carries its own authenticator. -/
theorem operation_security_tristate (g : SwaggerV2Generator) (d : PathDefinition)
    (op : SwaggerOperation) (h : mkOperation g d = .ok op) :
    (d.authenticator = .useDefault → op.security = none) ∧
    (d.authenticator = .noAuth → op.security = some []) ∧
    (∀ a, d.authenticator = .auth a →
      op.security = some [((_convert_header_api_key_authenticator a).1, [])]) := by
unfold mkOperation at h
rcases hp : operationParameters g d with e | params
· rw [hp] at h
  exact absurd h (by simp [bind, Except.bind])
· rw [hp] at h
  simp only [bind, Except.bind, Except.ok.injEq] at h
  subst h
  refine ⟨?_, ?_, ?_⟩
  · intro ha
    simp [operationSecurity, ha]
  · intro ha
    simp [operationSecurity, ha]
  · intro a ha
    simp [operationSecurity, ha, _get_security, _convert_header_api_key_authenticator]

/-- Witness for C3 at `noAuthRoute` (explicit `None` authenticator). -/
theorem operation_security_tristate_witness :
    noAuthOperation.security = some [] :=
(operation_security_tristate sampleGen noAuthRoute noAuthOperation rfl).2.1 rfl

/-- C10: path parameters. When `mkPathParameters` succeeds, the emitted
list has one entry per path argument in order, each with the argument's
name, `in = path`, `required = True`, and the type given by direct
lookup in the generator's flask-converter map; the constructor default
of that map holds exactly the four built-in tags; a path argument whose
type tag is absent from the map makes the lookup raise (`KeyError`)
instead of falling back to `string`; and registering a converter makes
its tag resolvable. -/
theorem path_parameter_spec :
    (∀ (g : SwaggerV2Generator) (args : List _PathArgument)
       (ps : List SwaggerParameter),
      mkPathParameters g args = .ok ps →
      ps = args.map (fun a =>
        { name := a.name, in_ := "path", required := true,
          type := List.lookup a.type g.flask_converters_to_swagger_types,
          schema := none })) ∧
    (∀ (qc rb hc rs : MSchema → Frag) (s : MSchema),
      ({ query_string_converter := qc, request_body_converter := rb,
         headers_converter := hc, response_converter := rs,
         default_response_schema := s } :
         SwaggerV2Generator).flask_converters_to_swagger_types =
      [("uuid", "string"), ("string", "string"),
       ("int", "integer"), ("float", "number")]) ∧
    (∀ (g : SwaggerV2Generator) (args : List _PathArgument) (a : _PathArgument),
      a ∈ args → List.lookup a.type g.flask_converters_to_swagger_types = none →
      ∃ msg, mkPathParameters g args = .error msg) ∧
    (∀ (g : SwaggerV2Generator) (fc st : String),
      List.lookup fc (register_flask_converter_to_swagger_type g fc
        st).flask_converters_to_swagger_types = some st) := by
refine ⟨?_, ?_, ?_, ?_⟩
· intro g args
  induction args with
  | nil =>
    intro ps h
    simp only [mkPathParameters, Except.ok.injEq] at h
    simp [← h]
  | cons a rest ih =>
    intro ps h
    simp only [mkPathParameters] at h
    rcases hl : List.lookup a.type g.flask_converters_to_swagger_types with _ | t
    · rw [hl] at h
      exact absurd h (by simp)
    · rw [hl] at h
      rcases hr : mkPathParameters g rest with e | ps2
      · rw [hr] at h
        exact absurd h (by simp [bind, Except.bind])
      · rw [hr] at h
        simp only [bind, Except.bind, Except.ok.injEq] at h
        subst h
        rw [List.map_cons, hl, ih ps2 hr]
· intro qc rb hc rs s
  rfl
· intro g args a hmem hnone
  induction args with
  | nil => simp at hmem
  | cons b rest ih =>
    rcases List.mem_cons.mp hmem with hb | hrest
    · subst hb
      refine ⟨"KeyError: " ++ a.type, ?_⟩
      simp [mkPathParameters, hnone]
    · rcases hl : List.lookup b.type g.flask_converters_to_swagger_types with _ | t
      · exact ⟨"KeyError: " ++ b.type, by simp [mkPathParameters, hl]⟩
      · rcases ih hrest with ⟨msg, hmsg⟩
        refine ⟨msg, ?_⟩
        simp [mkPathParameters, hl, hmsg, bind, Except.bind]
· intro g fc st
  exact lookup_dictInsert g.flask_converters_to_swagger_types fc st

/-- Witness for C10 at the default map with a `uuid`-typed argument and
an unregistered `objectid` argument. -/
theorem path_parameter_spec_witness :
    mkPathParameters sampleGen [⟨"project_uid", "uuid"⟩] =
      .ok [{ name := "project_uid", in_ := "path", required := true,
             type := some "string", schema := none }] ∧
    ∃ msg, mkPathParameters sampleGen [⟨"doc_id", "objectid"⟩] = .error msg := by
constructor
· rw [path_parameter_spec.1 sampleGen [⟨"project_uid", "uuid"⟩]
    _ rfl]
  rfl
· exact path_parameter_spec.2.2.1 sampleGen [⟨"doc_id", "objectid"⟩]
    ⟨"doc_id", "objectid"⟩ (by simp) (by rfl)

/-!
Identity de-duplication of `_get_definitions` (C2).
-/

theorem foldl_preserve {α β : Type} (P : α → Prop) (f : α → β → α)
    (hf : ∀ a x, P a → P (f a x)) :
    ∀ (l : List β) (a : α), P a → P (List.foldl f a l) := by
intro l
induction l with
| nil => intro a h; exact h
| cons x xs ih => intro a h; exact ih _ (hf a x h)

theorem addSchema_inv (k : ConverterKind) (s : MSchema)
    (acc : List MSchema × List ConverterCall) (h : CollectInv acc) :
    CollectInv (addSchema k s acc) := by
rcases h with ⟨hnd, hiff⟩
unfold addSchema
by_cases hmem : s ∈ acc.1
· simp only [if_pos hmem]
  exact ⟨hnd, hiff⟩
· simp only [if_neg hmem]
  constructor
  · simp only [List.map_append, List.map_cons, List.map_nil]
    rw [List.nodup_append]
    refine ⟨hnd, List.nodup_singleton _, ?_⟩
    intro x hx hxs
    simp only [List.mem_singleton] at hxs
    subst hxs
    exact hmem ((hiff x).mpr hx)
  · intro x
    simp only [List.map_append, List.map_cons, List.map_nil,
      List.mem_append, List.mem_singleton]
    constructor
    · intro hx
      rcases hx with hx | hx
      · exact Or.inl ((hiff x).mp hx)
      · exact Or.inr hx
    · intro hx
      rcases hx with hx | hx
      · exact Or.inl ((hiff x).mpr hx)
      · exact Or.inr hx

theorem addSchema_mono (k : ConverterKind) (s x : MSchema)
    (acc : List MSchema × List ConverterCall) (h : x ∈ acc.1) :
    x ∈ (addSchema k s acc).1 := by
unfold addSchema
by_cases hmem : s ∈ acc.1
· simpa only [if_pos hmem] using h
· simp only [if_neg hmem]
  exact List.mem_append_left _ h

theorem addSchema_self (k : ConverterKind) (s : MSchema)
    (acc : List MSchema × List ConverterCall) :
    s ∈ (addSchema k s acc).1 := by
unfold addSchema
by_cases hmem : s ∈ acc.1
· simpa only [if_pos hmem] using hmem
· simp [if_neg hmem]

theorem collectRoute_inv (acc : List MSchema × List ConverterCall)
    (d : PathDefinition) (h : CollectInv acc) : CollectInv (collectRoute acc d) := by
unfold collectRoute
have h2 : CollectInv (d.marshal_schemas.foldl (fun a p => addSchema .response p.2 a) acc) :=
  foldl_preserve CollectInv _ (fun a p ha => addSchema_inv .response p.2 a ha)
    d.marshal_schemas acc h
rcases hb : d.request_body_schema with _ | s
· exact h2
· exact addSchema_inv .requestBody s _ h2

theorem collectRoute_mono (acc : List MSchema × List ConverterCall)
    (d : PathDefinition) (x : MSchema) (h : x ∈ acc.1) :
    x ∈ (collectRoute acc d).1 := by
unfold collectRoute
have h2 : x ∈ (d.marshal_schemas.foldl (fun a p => addSchema .response p.2 a) acc).1 :=
  foldl_preserve (fun a => x ∈ a.1) _ (fun a p ha => addSchema_mono .response p.2 x a ha)
    d.marshal_schemas acc h
rcases hb : d.request_body_schema with _ | s
· exact h2
· exact addSchema_mono .requestBody s x _ h2

theorem marshal_fold_adds (x : MSchema) :
    ∀ (l : List (Nat × MSchema)) (acc : List MSchema × List ConverterCall),
    (∃ p ∈ l, p.2 = x) →
    x ∈ (l.foldl (fun a p => addSchema .response p.2 a) acc).1 := by
intro l
induction l with
| nil =>
  intro acc h
  rcases h with ⟨p, hp, _⟩
  simp at hp
| cons q rest ih =>
  intro acc h
  rcases h with ⟨p, hp, hpx⟩
  rcases List.mem_cons.mp hp with hq | hrest
  · subst hq
    subst hpx
    simp only [List.foldl_cons]
    exact foldl_preserve (fun a => p.2 ∈ a.1) _
      (fun a r ha => addSchema_mono .response r.2 p.2 a ha) rest _
      (addSchema_self .response p.2 acc)
  · simp only [List.foldl_cons]
    exact ih (addSchema .response q.2 acc) ⟨p, hrest, hpx⟩

theorem collectRoute_adds (acc : List MSchema × List ConverterCall)
    (d : PathDefinition) :
    (∀ p ∈ d.marshal_schemas, p.2 ∈ (collectRoute acc d).1) ∧
    (∀ s, d.request_body_schema = some s → s ∈ (collectRoute acc d).1) := by
unfold collectRoute
constructor
· intro p hp
  have h2 : p.2 ∈ (d.marshal_schemas.foldl (fun a q => addSchema .response q.2 a) acc).1 :=
    marshal_fold_adds p.2 d.marshal_schemas acc ⟨p, hp, rfl⟩
  rcases hb : d.request_body_schema with _ | s
  · exact h2
  · exact addSchema_mono .requestBody s p.2 _ h2
· intro s hs
  rw [hs]
  exact addSchema_self .requestBody s _

theorem routes_fold_adds (x : MSchema) :
    ∀ (ds : List PathDefinition) (acc : List MSchema × List ConverterCall)
    (d : PathDefinition), d ∈ ds →
    ((∃ p ∈ d.marshal_schemas, p.2 = x) ∨ d.request_body_schema = some x) →
    x ∈ (ds.foldl collectRoute acc).1 := by
intro ds
induction ds with
| nil =>
  intro acc d hd
  simp at hd
| cons e rest ih =>
  intro acc d hd hx
  rcases List.mem_cons.mp hd with he | hrest
  · subst he
    simp only [List.foldl_cons]
    have hbase : x ∈ (collectRoute acc d).1 := by
      rcases hx with ⟨p, hp, hpx⟩ | hb
      · subst hpx
        exact (collectRoute_adds acc d).1 p hp
      · exact (collectRoute_adds acc d).2 x hb
    exact foldl_preserve (fun a => x ∈ a.1) _
      (fun a r ha => collectRoute_mono a r x ha) rest _ hbase
  · exact ih _ d hrest hx

/-- C2: identity de-duplication of the definitions pass. Universally: the
converter-invocation log of `_get_definitions` never contains the same
schema instance twice, and every marshal or request-body schema of any
route appears in it (so a schema instance shared by several routes is
converted exactly once). Concretely: the table registering `fooSchema`
on two routes converts it once and produces exactly one definitions
entry for it, while two distinct instances with identical shape but
different titles produce two entries. -/
theorem definitions_identity_dedup :
    (∀ (g : SwaggerV2Generator) (ds : List PathDefinition),
      (((collectSchemas g ds).2).map (fun c => c.schema)).Nodup) ∧
    (∀ (g : SwaggerV2Generator) (ds : List PathDefinition) (d : PathDefinition)
       (x : MSchema), d ∈ ds →
      ((∃ p ∈ d.marshal_schemas, p.2 = x) ∨ d.request_body_schema = some x) →
      x ∈ ((collectSchemas g ds).2).map (fun c => c.schema)) ∧
    ((collectSchemas sampleGen (_iterate_path_definitions sharedSchemaPaths)).2 =
      [⟨.response, errorSchema⟩, ⟨.response, fooSchema⟩] ∧
     _get_definitions sampleGen sharedSchemaPaths =
      .ok [("Error", .obj (some "Error") [("message", .prim "string")] []),
           ("Foo", .obj (some "Foo") [("message", .prim "string")] [])]) ∧
    (_get_definitions sampleGen distinctTitlePaths =
      .ok [("Error", .obj (some "Error") [("message", .prim "string")] []),
           ("A", .obj (some "A") [("message", .prim "string")] []),
           ("B", .obj (some "B") [("message", .prim "string")] [])]) := by
have hinit : ∀ (g : SwaggerV2Generator), CollectInv
    ([g.default_response_schema],
     [⟨.response, g.default_response_schema⟩]) := by
  intro g
  constructor
  · simp
  · intro x
    simp
refine ⟨?_, ?_, ⟨rfl, rfl⟩, rfl⟩
· intro g ds
  exact (foldl_preserve CollectInv collectRoute collectRoute_inv ds _ (hinit g)).1
· intro g ds d x hd hx
  have hinv := foldl_preserve CollectInv collectRoute collectRoute_inv ds _ (hinit g)
  have hmem := routes_fold_adds x ds
    ([g.default_response_schema], [⟨.response, g.default_response_schema⟩]) d hd hx
  exact ((hinv.2 x).mp hmem)

/-- Witness for C2's universal part: the shared `fooSchema` instance
appears in the converter-invocation log of the two-route table. -/
theorem definitions_identity_dedup_witness :
    fooSchema ∈ ((collectSchemas sampleGen
      (_iterate_path_definitions sharedSchemaPaths)).2).map (fun c => c.schema) :=
definitions_identity_dedup.2.1 sampleGen
  (_iterate_path_definitions sharedSchemaPaths) routeGetFoo fooSchema
  (by rw [show _iterate_path_definitions sharedSchemaPaths =
        [routeGetFoo, routePatchFoo] from rfl]
      exact List.mem_cons_self _ _)
  (Or.inl ⟨(200, fooSchema), by
    rw [show routeGetFoo.marshal_schemas = [(200, fooSchema)] from rfl]
    exact ⟨List.mem_singleton.mpr rfl, rfl⟩⟩)

/-!
Frame property of the heap-level flattener (C9): no pre-existing heap
cell is ever written, because every write lands in the deep copy.
-/

theorem closedAbove_trivial (h : Heap) : closedAbove h.length h := by
intro i nd c hi hget hc
rw [List.getElem?_eq_none hi] at hget
exact absurd hget (by simp)

theorem closedAbove_append_one (n : Nat) (h : Heap) (nd : HNode)
    (hc : closedAbove n h) (hnd : ∀ c ∈ nodeChildren nd, n ≤ c) :
    closedAbove n (h ++ [nd]) := by
intro i x c hi hget hcin
by_cases hlt : i < h.length
· rw [List.getElem?_append_left hlt] at hget
  exact hc i x c hi hget hcin
· by_cases heq : i = h.length
  · subst heq
    rw [List.getElem?_concat_length] at hget
    cases hget
    exact hnd c hcin
  · have : (h ++ [nd])[i]? = none := by
      apply List.getElem?_eq_none
      simp only [List.length_append, List.length_cons, List.length_nil]
      omega
    rw [this] at hget
    exact absurd hget (by simp)

theorem closedAbove_set (n : Nat) (h : Heap) (a : Nat) (nd : HNode)
    (hc : closedAbove n h) (hnd : ∀ c ∈ nodeChildren nd, n ≤ c) :
    closedAbove n (h.set a nd) := by
intro i x c hi hget hcin
rw [List.getElem?_set] at hget
by_cases heq : a = i
· rw [if_pos heq] at hget
  by_cases hlt : a < h.length
  · rw [if_pos hlt] at hget
    cases hget
    exact hnd c hcin
  · rw [if_neg hlt] at hget
    exact absurd hget (by simp)
· rw [if_neg heq] at hget
  exact hc i x c hi hget hcin

theorem deepcopy_spec : ∀ (fuel : Nat),
    (∀ (n : Nat) (h : Heap) (a : Nat) (h1 : Heap) (a1 : Nat),
      n ≤ h.length → closedAbove n h → deepcopyNode fuel h a = some (h1, a1) →
      (∀ i, i < h.length → h1[i]? = h[i]?) ∧ h.length ≤ h1.length ∧
      n ≤ a1 ∧ closedAbove n h1) ∧
    (∀ (n : Nat) (h : Heap) (props : List (String × Nat)) (h1 : Heap)
       (props2 : List (String × Nat)),
      n ≤ h.length → closedAbove n h → deepcopyProps fuel h props = some (h1, props2) →
      (∀ i, i < h.length → h1[i]? = h[i]?) ∧ h.length ≤ h1.length ∧
      (∀ p ∈ props2, n ≤ p.2) ∧ closedAbove n h1) := by
intro fuel
induction fuel with
| zero =>
  constructor
  · intro n h a h1 a1 _ _ hd
    exact absurd hd (by simp [deepcopyNode])
  · intro n h props h1 props2 _ _ hd
    exact absurd hd (by simp [deepcopyProps])
| succ fuel ih =>
  constructor
  · intro n h a h1 a1 hn hc hd
    rcases hg : h[a]? with _ | nd
    · simp [deepcopyNode, hg] at hd
    · cases nd with
      | obj t props req =>
        simp only [deepcopyNode, hg] at hd
        rcases hdp : deepcopyProps fuel h props with _ | ⟨h2, props2⟩
        · simp [hdp] at hd
        · simp only [hdp, halloc, Option.some.injEq, Prod.mk.injEq] at hd
          obtain ⟨hh1, ha1⟩ := hd
          obtain ⟨hf2, hl2, hb2, hc2⟩ := ih.2 n h props h2 props2 hn hc hdp
          subst hh1
          refine ⟨?_, ?_, ?_, ?_⟩
          · intro i hi
            rw [List.getElem?_append_left (by omega)]
            exact hf2 i hi
          · simp only [List.length_append, List.length_cons, List.length_nil]
            omega
          · omega
          · apply closedAbove_append_one n h2 _ hc2
            intro c hcin
            simp only [nodeChildren, List.mem_map] at hcin
            rcases hcin with ⟨p, hp, hpc⟩
            rw [← hpc]
            exact (hb2 p hp)
      | arr t items =>
        simp only [deepcopyNode, hg] at hd
        rcases hdi : deepcopyNode fuel h items with _ | ⟨h2, i2⟩
        · simp [hdi] at hd
        · simp only [hdi, halloc, Option.some.injEq, Prod.mk.injEq] at hd
          obtain ⟨hh1, ha1⟩ := hd
          obtain ⟨hf2, hl2, hb2, hc2⟩ := ih.1 n h items h2 i2 hn hc hdi
          subst hh1
          refine ⟨?_, ?_, ?_, ?_⟩
          · intro i hi
            rw [List.getElem?_append_left (by omega)]
            exact hf2 i hi
          · simp only [List.length_append, List.length_cons, List.length_nil]
            omega
          · omega
          · apply closedAbove_append_one n h2 _ hc2
            intro c hcin
            simp only [nodeChildren, List.mem_singleton] at hcin
            omega
      | prim ty =>
        simp only [deepcopyNode, hg, halloc, Option.some.injEq, Prod.mk.injEq] at hd
        obtain ⟨hh1, ha1⟩ := hd
        subst hh1
        refine ⟨?_, ?_, ?_, ?_⟩
        · intro i hi
          rw [List.getElem?_append_left (by omega)]
        · simp only [List.length_append, List.length_cons, List.length_nil]
          omega
        · omega
        · apply closedAbove_append_one n h _ hc
          intro c hcin
          simp [nodeChildren] at hcin
      | ref r =>
        simp only [deepcopyNode, hg, halloc, Option.some.injEq, Prod.mk.injEq] at hd
        obtain ⟨hh1, ha1⟩ := hd
        subst hh1
        refine ⟨?_, ?_, ?_, ?_⟩
        · intro i hi
          rw [List.getElem?_append_left (by omega)]
        · simp only [List.length_append, List.length_cons, List.length_nil]
          omega
        · omega
        · apply closedAbove_append_one n h _ hc
          intro c hcin
          simp [nodeChildren] at hcin
  · intro n h props h1 props2 hn hc hd
    match props with
    | [] =>
      simp only [deepcopyProps, Option.some.injEq, Prod.mk.injEq] at hd
      obtain ⟨hh1, hp2⟩ := hd
      subst hh1
      subst hp2
      exact ⟨fun i _ => rfl, Nat.le_refl _, by simp, hc⟩
    | (f, a) :: rest =>
      simp only [deepcopyProps] at hd
      rcases hdn : deepcopyNode fuel h a with _ | ⟨h2, a2⟩
      · simp [hdn] at hd
      · simp only [hdn] at hd
        obtain ⟨hf2, hl2, hb2, hc2⟩ := ih.1 n h a h2 a2 hn hc hdn
        rcases hdr : deepcopyProps fuel h2 rest with _ | ⟨h3, rest2⟩
        · simp [hdr] at hd
        · simp only [hdr, Option.some.injEq, Prod.mk.injEq] at hd
          obtain ⟨hh1, hp2⟩ := hd
          subst hh1
          subst hp2
          obtain ⟨hf3, hl3, hb3, hc3⟩ := ih.2 n h2 rest h3 rest2 (by omega) hc2 hdr
          refine ⟨?_, ?_, ?_, ?_⟩
          · intro i hi
            rw [hf3 i (by omega)]
            exact hf2 i hi
          · omega
          · intro p hp
            rcases List.mem_cons.mp hp with hh | ht
            · subst hh
              exact hb2
            · exact hb3 p ht
          · exact hc3

theorem flattenMut_spec : ∀ (fuel : Nat),
    (∀ (n : Nat) (h : Heap) (a : Nat) (defs : HDefs) (h1 : Heap) (key : String)
       (defs1 : HDefs),
      n ≤ h.length → closedAbove n h → n ≤ a →
      flattenObjectH fuel h a defs = some (h1, key, defs1) →
      (∀ i, i < n → h1[i]? = h[i]?) ∧ n ≤ h1.length ∧ closedAbove n h1) ∧
    (∀ (n : Nat) (h : Heap) (props : List (String × Nat)) (defs : HDefs)
       (h1 : Heap) (props2 : List (String × Nat)) (defs1 : HDefs),
      n ≤ h.length → closedAbove n h → (∀ p ∈ props, n ≤ p.2) →
      flattenPropsH fuel h props defs = some (h1, props2, defs1) →
      (∀ i, i < n → h1[i]? = h[i]?) ∧ n ≤ h1.length ∧ closedAbove n h1 ∧
      (∀ p ∈ props2, n ≤ p.2)) ∧
    (∀ (n : Nat) (h : Heap) (a : Nat) (defs : HDefs) (h1 : Heap) (defs1 : HDefs),
      n ≤ h.length → closedAbove n h → n ≤ a →
      flattenArrayH fuel h a defs = some (h1, defs1) →
      (∀ i, i < n → h1[i]? = h[i]?) ∧ n ≤ h1.length ∧ closedAbove n h1) := by
intro fuel
induction fuel with
| zero =>
  refine ⟨?_, ?_, ?_⟩
  · intro n h a defs h1 key defs1 _ _ _ hd
    exact absurd hd (by simp [flattenObjectH])
  · intro n h props defs h1 props2 defs1 _ _ _ hd
    exact absurd hd (by simp [flattenPropsH])
  · intro n h a defs h1 defs1 _ _ _ hd
    exact absurd hd (by simp [flattenArrayH])
| succ fuel ih =>
  refine ⟨?_, ?_, ?_⟩
  · intro n h a defs h1 key defs1 hn hc ha hd
    rcases hg : h[a]? with _ | nd
    · simp [flattenObjectH, hg] at hd
    · cases nd with
      | obj title props req =>
        simp only [flattenObjectH, hg] at hd
        have hprops : ∀ p ∈ props, n ≤ p.2 := by
          intro p hp
          exact hc a (.obj title props req) p.2 ha hg
            (by simp only [nodeChildren]; exact List.mem_map_of_mem _ hp)
        rcases hfp : flattenPropsH fuel h props defs with _ | ⟨h2, props2, defs2⟩
        · simp [hfp] at hd
        · simp only [hfp] at hd
          obtain ⟨hf2, hl2, hc2, hb2⟩ := ih.2.1 n h props defs h2 props2 defs2 hn hc hprops hfp
          rcases title with _ | key0
          · simp at hd
          · simp only [Option.some.injEq, Prod.mk.injEq] at hd
            obtain ⟨hh1, hkey, hdefs⟩ := hd
            subst hh1
            refine ⟨?_, ?_, ?_⟩
            · intro i hi
              unfold hwrite
              rw [List.getElem?_set_ne (by omega)]
              exact hf2 i hi
            · unfold hwrite
              rw [List.length_set]
              exact hl2
            · apply closedAbove_set n h2 a _ hc2
              intro c hcin
              simp only [nodeChildren, List.mem_map] at hcin
              rcases hcin with ⟨p, hp, hpc⟩
              rw [← hpc]
              exact hb2 p hp
      | arr title items => simp [flattenObjectH, hg] at hd
      | prim ty => simp [flattenObjectH, hg] at hd
      | ref r => simp [flattenObjectH, hg] at hd
  · intro n h props defs h1 props2 defs1 hn hc hb hd
    match props with
    | [] =>
      simp only [flattenPropsH, Option.some.injEq, Prod.mk.injEq] at hd
      obtain ⟨hh1, hp2, hdefs⟩ := hd
      subst hh1
      subst hp2
      exact ⟨fun i _ => rfl, hn, hc, by simp⟩
    | (f, ca) :: rest =>
      have hca : n ≤ ca := hb (f, ca) (List.mem_cons_self _ _)
      have hrest : ∀ p ∈ rest, n ≤ p.2 := fun p hp => hb p (List.mem_cons_of_mem _ hp)
      rcases hg : h[ca]? with _ | nd
      · simp [flattenPropsH, hg] at hd
      · cases nd with
        | obj t2 props0 req0 =>
          simp only [flattenPropsH, hg] at hd
          rcases hob : flattenObjectH fuel h ca defs with _ | ⟨h2, key, defs2⟩
          · simp [hob] at hd
          · simp only [hob, halloc] at hd
            obtain ⟨hf2, hl2, hc2⟩ := ih.1 n h ca defs h2 key defs2 hn hc hca hob
            have hc3 : closedAbove n (h2 ++ [HNode.ref (_get_ref key)]) := by
              apply closedAbove_append_one n h2 _ hc2
              intro c hcin
              simp [nodeChildren] at hcin
            rcases hrec : flattenPropsH fuel (h2 ++ [HNode.ref (_get_ref key)])
                rest defs2 with _ | ⟨h4, rest2, defs3⟩
            · simp [hrec] at hd
            · simp only [hrec, Option.some.injEq, Prod.mk.injEq] at hd
              obtain ⟨hh1, hp2, hdefs⟩ := hd
              subst hh1
              subst hp2
              obtain ⟨hf4, hl4, hc4, hb4⟩ := ih.2.1 n (h2 ++ [HNode.ref (_get_ref key)])
                rest defs2 h4 rest2 defs3
                (by simp only [List.length_append]; omega) hc3 hrest hrec
              refine ⟨?_, ?_, ?_, ?_⟩
              · intro i hi
                rw [hf4 i hi, List.getElem?_append_left (by omega)]
                exact hf2 i hi
              · omega
              · exact hc4
              · intro p hp
                rcases List.mem_cons.mp hp with hh | ht
                · subst hh
                  omega
                · exact hb4 p ht
        | arr t2 items0 =>
          simp only [flattenPropsH, hg] at hd
          rcases har : flattenArrayH fuel h ca defs with _ | ⟨h2, defs2⟩
          · simp [har] at hd
          · simp only [har] at hd
            obtain ⟨hf2, hl2, hc2⟩ := ih.2.2 n h ca defs h2 defs2 hn hc hca har
            rcases hrec : flattenPropsH fuel h2 rest defs2 with _ | ⟨h3, rest2, defs3⟩
            · simp [hrec] at hd
            · simp only [hrec, Option.some.injEq, Prod.mk.injEq] at hd
              obtain ⟨hh1, hp2, hdefs⟩ := hd
              subst hh1
              subst hp2
              obtain ⟨hf3, hl3, hc3, hb3⟩ := ih.2.1 n h2 rest defs2 h3 rest2 defs3
                (by omega) hc2 hrest hrec
              refine ⟨?_, ?_, ?_, ?_⟩
              · intro i hi
                rw [hf3 i hi]
                exact hf2 i hi
              · omega
              · exact hc3
              · intro p hp
                rcases List.mem_cons.mp hp with hh | ht
                · subst hh
                  exact hca
                · exact hb3 p ht
        | prim ty =>
          simp only [flattenPropsH, hg] at hd
          rcases hrec : flattenPropsH fuel h rest defs with _ | ⟨h2, rest2, defs2⟩
          · simp [hrec] at hd
          · simp only [hrec, Option.some.injEq, Prod.mk.injEq] at hd
            obtain ⟨hh1, hp2, hdefs⟩ := hd
            subst hh1
            subst hp2
            obtain ⟨hf2, hl2, hc2, hb2⟩ := ih.2.1 n h rest defs h2 rest2 defs2 hn hc hrest hrec
            refine ⟨hf2, hl2, hc2, ?_⟩
            intro p hp
            rcases List.mem_cons.mp hp with hh | ht
            · subst hh
              exact hca
            · exact hb2 p ht
        | ref r => simp [flattenPropsH, hg] at hd
  · intro n h a defs h1 defs1 hn hc ha hd
    rcases hg : h[a]? with _ | nd
    · simp [flattenArrayH, hg] at hd
    · cases nd with
      | obj t2 props0 req0 => simp [flattenArrayH, hg] at hd
      | arr title items =>
        have hitems : n ≤ items := by
          apply hc a (.arr title items) items ha hg
          simp [nodeChildren]
        simp only [flattenArrayH, hg] at hd
        rcases hgi : h[items]? with _ | nd2
        · simp [hgi] at hd
        · cases nd2 with
          | obj t3 props0 req0 =>
            simp only [hgi] at hd
            rcases hob : flattenObjectH fuel h items defs with _ | ⟨h2, key, defs2⟩
            · simp [hob] at hd
            · simp only [hob, halloc, Option.some.injEq, Prod.mk.injEq] at hd
              obtain ⟨hh1, hdefs⟩ := hd
              subst hh1
              obtain ⟨hf2, hl2, hc2⟩ := ih.1 n h items defs h2 key defs2 hn hc hitems hob
              have hc3 : closedAbove n (h2 ++ [HNode.ref (_get_ref key)]) := by
                apply closedAbove_append_one n h2 _ hc2
                intro c hcin
                simp [nodeChildren] at hcin
              refine ⟨?_, ?_, ?_⟩
              · intro i hi
                unfold hwrite
                rw [List.getElem?_set_ne (by omega),
                  List.getElem?_append_left (by omega)]
                exact hf2 i hi
              · unfold hwrite
                rw [List.length_set]
                simp only [List.length_append]
                omega
              · apply closedAbove_set n _ a _ hc3
                intro c hcin
                simp only [nodeChildren, List.mem_singleton] at hcin
                omega
          | arr t3 items0 =>
            simp only [hgi] at hd
            exact ih.2.2 n h items defs h1 defs1 hn hc hitems hd
          | prim ty =>
            simp only [hgi, Option.some.injEq, Prod.mk.injEq] at hd
            obtain ⟨hh1, hdefs⟩ := hd
            subst hh1
            exact ⟨fun i _ => rfl, hn, hc⟩
          | ref r => simp [hgi] at hd
      | prim ty => simp [flattenArrayH, hg] at hd
      | ref r => simp [flattenArrayH, hg] at hd

/-- C9: `_flatten` never mutates its input. At the heap level, a
successful `flattenHeap` run leaves every pre-existing heap cell with
exactly its old value — all rewriting happens on the cells freshly
allocated by the deep copy — so the caller's fragment reads back
unchanged after the call. -/
theorem flatten_never_mutates_input (fuel : Nat) (h : Heap) (a : Nat)
    (h1 : Heap) (r : Nat) (defs : HDefs)
    (hf : flattenHeap fuel h a = some (h1, r, defs)) :
    ∀ i, i < h.length → h1[i]? = h[i]? := by
intro i hi
unfold flattenHeap at hf
rcases hd : deepcopyNode fuel h a with _ | ⟨hcopy, a1⟩
· simp [hd] at hf
· simp only [hd] at hf
  obtain ⟨hframe, hlen, ha1, hclosed⟩ := (deepcopy_spec fuel).1 h.length h a hcopy a1
    (Nat.le_refl _) (closedAbove_trivial h) hd
  rcases hg : hcopy[a1]? with _ | nd
  · simp [hg] at hf
  · cases nd with
    | obj t props req =>
      simp only [hg] at hf
      rcases hob : flattenObjectH fuel hcopy a1 [] with _ | ⟨h2, key, defs2⟩
      · simp [hob] at hf
      · simp only [hob, halloc, Option.some.injEq, Prod.mk.injEq] at hf
        obtain ⟨hh1, _, _⟩ := hf
        subst hh1
        obtain ⟨hf2, hl2, _⟩ := (flattenMut_spec fuel).1 h.length hcopy a1 [] h2 key defs2
          hlen hclosed ha1 hob
        rw [List.getElem?_append_left (by omega), hf2 i hi]
        exact hframe i hi
    | arr t items =>
      simp only [hg] at hf
      rcases har : flattenArrayH fuel hcopy a1 [] with _ | ⟨h2, defs2⟩
      · simp [har] at hf
      · simp only [har, Option.some.injEq, Prod.mk.injEq] at hf
        obtain ⟨hh1, _, _⟩ := hf
        subst hh1
        obtain ⟨hf2, hl2, _⟩ := (flattenMut_spec fuel).2.2 h.length hcopy a1 [] h2 defs2
          hlen hclosed ha1 har
        rw [hf2 i hi]
        exact hframe i hi
    | prim ty =>
      simp only [hg, Option.some.injEq, Prod.mk.injEq] at hf
      obtain ⟨hh1, _, _⟩ := hf
      subst hh1
      exact hframe i hi
    | ref r2 => simp [hg] at hf

/-- Witness for C9 at `c9Heap`. -/
theorem flatten_never_mutates_input_witness :
    c9HeapAfter[0]? = c9Heap[0]? :=
flatten_never_mutates_input 10 c9Heap 0 c9HeapAfter 4 [("x", 3)] rfl 0 (by decide)

end FlaskRebar
